import Mathlib

/-!
# Verification of the Tako fork-join job scheduler (`Tako.JobSystem` module)

This file gives a shallow embedding of the scheduler's data model and
operations (job records, per-worker queues, the thread-local free/delete
lists, the scheduling API, the worker loop and the completion protocol),
translated from the C++ source, and proves the specified properties
about them.

Modelling conventions:
* Job records live in a heap `jobs : Nat → JobRec` addressed by `Nat`
  (a pool block address).  The pool allocator is modelled as a fresh
  address counter (`nextAddr`); `ASSERT(ptr)` never fires in the model
  (the pool is unbounded), which is irrelevant to the claims below.
* The scheduler's thread-local state (`m_runningJob`, `m_threadIndex`,
  the free and delete lists) is embedded in the state record: the model
  is the sequential view of one worker, which is what the protocol
  claims quantify over.
* `std::atomic<int>` becomes `Int` with plain reads/writes: in the
  sequential view, `fetch_sub` is a read followed by a write of the
  decremented value, returning the pre-decrement value.
* Every primitive effect appends an event to a ghost `log`, so that the
  ordering claims ("incremented before the push", "not invoked until…")
  are statable.  The log is written at exactly the program points where
  the source performs the corresponding effect.
* C++ loops over intrusive linked lists (the free-list scan in
  `AllocateJob`, the drain loop in `DeleteOldJobs`) and the recursion /
  wait loops (`OnJobDone`, `RunJob`, the worker loop) take a fuel
  argument; exhausting fuel yields `none`.  On well-formed states a
  fuel bound derived from the list length suffices, and theorems are
  stated accordingly.
-/

/-- Which queue a push/pop targets: `m_localQueues[i]` or `m_globalQueues[i]`. -/
inductive QRef where
  | localQ (i : Nat)
  | globalQ (i : Nat)
deriving DecidableEq, Repr

/-- Ghost events recording the order of the scheduler's primitive effects. -/
inductive Ev where
  /-- `JobQueue::Pop` was entered on this queue. -/
  | popTry (q : QRef)
  /-- `JobQueue::Pop` returned job `j` from this queue. -/
  | popOk (q : QRef) (j : Nat)
  /-- `JobQueue::Push` appended job `j` to this queue. -/
  | push (q : QRef) (j : Nat)
  /-- `m_jobsLeft++` on job `j`. -/
  | inc (j : Nat)
  /-- `m_jobsLeft.fetch_sub(1)` on job `j`; `prev` is the pre-decrement value. -/
  | dec (j : Nat) (prev : Int)
  /-- The functor stored in job `j` (tag `tag`) starts running. -/
  | invoke (j : Nat) (tag : Nat)
  /-- The functor stored in job `j` returned. -/
  | ret (j : Nat)
  /-- `Job::Reset` ran on job `j` during reclamation. -/
  | reset (j : Nat)
  /-- Job `j` was pushed onto the thread-local free list. -/
  | toFree (j : Nat)
  /-- Job `j` was diverted onto the thread-local delete list. -/
  | toDelete (j : Nat)
  /-- `m_allocMutex` acquired. -/
  | lockAlloc
  /-- `m_allocMutex` released. -/
  | unlockAlloc
  /-- Job `j`'s block was returned to the pool allocator. -/
  | freed (j : Nat)
  /-- `m_cv.notify_all()`. -/
  | notify
  /-- `WaitFor()`: bounded condvar wait. -/
  | wait
deriving DecidableEq, Repr

/-- A job record: the header fields of `class Job` (the inline functor
storage `m_functorData` is modelled by `functorData`, the tag of the
type-erased callable currently constructed in it, if any). -/
structure JobRec where
  parent : Option Nat
  continuation : Option Nat
  functorActive : Bool
  jobsLeft : Int
  functorSize : Nat
  functorData : Option Nat
deriving DecidableEq, Repr

/-- A functor type, abstractly: `tag` identifies its behaviour, `size`
is `sizeof(JobFunctor<Functor>)` in bytes. -/
structure Fctr where
  tag : Nat
  size : Nat
deriving DecidableEq, Repr

/-- The value of `sizeof(Job)` on the reference LP64 layout: two 8-byte pointers,
`bool` plus padding, a 4-byte `std::atomic<int>`, an 8-byte `size_t`,
and the flexible array member contributing no size. -/
def jobHeaderSize : Nat := 32

/-- The scheduler state: the heap of job records, the per-worker queues,
and the (thread-local) worker state, plus the ghost event log. -/
structure St where
  jobs : Nat → JobRec
  nextAddr : Nat
  localQueues : List (List Nat)
  globalQueues : List (List Nat)
  runningJob : Option Nat
  threadIndex : Nat
  threadCount : Nat
  freeJobList : Option Nat
  freeJobListCount : Nat
  deleteJobList : Option Nat
  deleteJobListCount : Nat
  poolFreed : List Nat
  notified : Bool
  log : List Ev

/-- Behaviour environment: what the functor with a given tag does to the
scheduler state when invoked (`none` models a crash inside the functor). -/
def Env : Type := Nat → St → Option St

/-- Update one record in the job heap. -/
def setJob (h : Nat → JobRec) (a : Nat) (r : JobRec) : Nat → JobRec :=
  fun b => if b = a then r else h b

/-- Append a ghost event. -/
def addLog (s : St) (e : Ev) : St := { s with log := s.log ++ [e] }

/-- Read a queue. -/
def getQ (s : St) : QRef → List Nat
  | .localQ i => s.localQueues.getD i []
  | .globalQ i => s.globalQueues.getD i []

/-- Write a queue. -/
def updQ (s : St) (q : QRef) (v : List Nat) : St :=
  match q with
  | .localQ i => { s with localQueues := s.localQueues.set i v }
  | .globalQ i => { s with globalQueues := s.globalQueues.set i v }

/-- Source `JobQueue::Push`: append to the tail under the queue spinlock. -/
def pushQ (s : St) (q : QRef) (j : Nat) : St :=
  addLog (updQ s q (getQ s q ++ [j])) (.push q j)

/-- Source `JobQueue::Pop`: remove the head under the queue spinlock;
returns `none` on an empty queue. -/
def popQ (s : St) (q : QRef) : St × Option Nat :=
  let s := addLog s (.popTry q)
  match getQ s q with
  | [] => (s, none)
  | j :: rest => (addLog (updQ s q rest) (.popOk q j), some j)

/-- Source `Job::SetFunctor`: destroy the old functor if one is active, then
placement-new the new one into the inline storage.  The source performs
no capacity check here. -/
def recSetFunctor (r : JobRec) (fc : Fctr) : JobRec :=
  { r with functorData := some fc.tag, functorActive := true }

/-- Source `Job::Reset`: destroy the functor if active, then clear the links
and reinitialise the counter to 1. -/
def resetRec (r : JobRec) : JobRec :=
  let r := if r.functorActive then
    { r with functorData := none, functorActive := false } else r
  { r with parent := none, continuation := none, jobsLeft := 1 }

/-- The `Job(size_t functorSize)` constructor: record the capacity and
run `Reset()`. -/
def mkJob (functorSize : Nat) : JobRec :=
  resetRec { parent := none, continuation := none, functorActive := false,
             jobsLeft := 1, functorSize := functorSize, functorData := none }

/-- The free-list scan in `JobSystem::AllocateJob`: walk the intrusive
list (linked through `m_parent`) past records whose capacity is below
`need`, returning the predecessor and the found record.  Fuel bounds the
walk; `none` means the fuel ran out before the list ended. -/
def findFit (jobs : Nat → JobRec) (need : Nat) :
    Nat → Option Nat → Option Nat → Option (Option Nat × Option Nat)
  | _, prev, none => some (prev, none)
  | 0, _, some _ => none
  | fuel+1, prev, some j =>
    if (jobs j).functorSize < need then
      findFit jobs need fuel (some j) (jobs j).parent
    else
      some (prev, some j)

/-- Source `JobSystem::AllocateJob`: reuse a fitting record from the
thread-local free list, else take the pool mutex and construct a fresh
`Job(128 - sizeof(Job))` over a new pool block; then `SetFunctor`. -/
def AllocateJob (s : St) (fc : Fctr) : Option (St × Nat) := do
  let need := max fc.size 24
  let (prev, found) ← findFit s.jobs need (s.freeJobListCount + 1) none s.freeJobList
  match found with
  | some j =>
    let s :=
      match prev with
      | some p => { s with jobs := setJob s.jobs p { s.jobs p with parent := (s.jobs j).parent } }
      | none => { s with freeJobList := (s.jobs j).parent }
    let s := { s with jobs := setJob s.jobs j { s.jobs j with parent := none },
                      freeJobListCount := s.freeJobListCount - 1 }
    let s := { s with jobs := setJob s.jobs j (recSetFunctor (s.jobs j) fc) }
    some (s, j)
  | none =>
    let addr := s.nextAddr
    let s := addLog (addLog s .lockAlloc) .unlockAlloc
    let s := { s with nextAddr := addr + 1,
                      jobs := setJob s.jobs addr (mkJob (128 - jobHeaderSize)) }
    let s := { s with jobs := setJob s.jobs addr (recSetFunctor (s.jobs addr) fc) }
    some (s, addr)

/-- Source `JobSystem::ScheduleRaw`: parent the job to the ambient running job
(incrementing the ambient job's counter) when one exists, the job has no
parent and the submission is not detached; then push and notify. -/
def ScheduleRaw (s : St) (q : QRef) (j : Nat) (detached : Bool) : St × Nat :=
  let s :=
    match s.runningJob with
    | some r =>
      if (s.jobs j).parent = none ∧ detached = false then
        let s := addLog { s with jobs := setJob s.jobs r { s.jobs r with jobsLeft := (s.jobs r).jobsLeft + 1 } } (.inc r)
        { s with jobs := setJob s.jobs j { s.jobs j with parent := some r } }
      else s
    | none => s
  let s := pushQ s q j
  (addLog { s with notified := true } .notify, j)

/-- Source `JobSystem::Schedule(Job*)`: schedule on the current worker's global queue. -/
def ScheduleJob (s : St) (j : Nat) : St × Nat :=
  ScheduleRaw s (.globalQ s.threadIndex) j false

/-- Source `JobSystem::Schedule(Functor&&)`. -/
def Schedule (s : St) (fc : Fctr) : Option (St × Nat) := do
  let (s, j) ← AllocateJob s fc
  some (ScheduleJob s j)

/-- Source `JobSystem::ScheduleDetached(Functor&&)`. -/
def ScheduleDetached (s : St) (fc : Fctr) : Option (St × Nat) := do
  let (s, j) ← AllocateJob s fc
  some (ScheduleRaw s (.globalQ s.threadIndex) j true)

/-- Source `JobSystem::ScheduleForThread(thread, Job*)`: schedule on the target
worker's local queue. -/
def ScheduleForThreadJob (s : St) (t : Nat) (j : Nat) : St × Nat :=
  ScheduleRaw s (.localQ t) j false

/-- Source `JobSystem::ScheduleForThread(thread, Functor&&)`. -/
def ScheduleForThread (s : St) (t : Nat) (fc : Fctr) : Option (St × Nat) := do
  let (s, j) ← AllocateJob s fc
  some (ScheduleForThreadJob s t j)

/-- Source `JobSystem::Continuation`: allocate a job for the functor and store
it as the ambient running job's continuation (the source dereferences
`m_runningJob` unconditionally; no ambient job is modelled as `none`). -/
def Continuation (s : St) (fc : Fctr) : Option St := do
  let r ← s.runningJob
  let (s, k) ← AllocateJob s fc
  some { s with jobs := setJob s.jobs r { s.jobs r with continuation := some k } }

/-- Source `JobSystem::DeallocateJob`: the record is `Reset` the record, then push it onto
the thread-local free list, or divert it to the delete list when the
free list already holds 100 or more entries. -/
def DeallocateJob (s : St) (j : Nat) : St :=
  let s := addLog { s with jobs := setJob s.jobs j (resetRec (s.jobs j)) } (.reset j)
  if 100 ≤ s.freeJobListCount then
    addLog { s with jobs := setJob s.jobs j { s.jobs j with parent := s.deleteJobList },
                    deleteJobList := some j,
                    deleteJobListCount := s.deleteJobListCount + 1 } (.toDelete j)
  else
    addLog { s with jobs := setJob s.jobs j { s.jobs j with parent := s.freeJobList },
                    freeJobList := some j,
                    freeJobListCount := s.freeJobListCount + 1 } (.toFree j)

/-- Source `JobSystem::OnJobDone`, the completion protocol: fetch-sub the
counter; when the pre-decrement value is 1, splice and schedule the
continuation, bubble up to the parent, and reclaim the record. -/
def OnJobDone : Nat → St → Nat → Option St
  | 0, _, _ => none
  | fuel+1, s, j =>
    let left := (s.jobs j).jobsLeft
    let s := addLog { s with jobs := setJob s.jobs j { s.jobs j with jobsLeft := left - 1 } } (.dec j left)
    if left = 1 then do
      let s :=
        match (s.jobs j).continuation with
        | some k =>
          let s :=
            match (s.jobs j).parent with
            | some p =>
              let s := addLog { s with jobs := setJob s.jobs p { s.jobs p with jobsLeft := (s.jobs p).jobsLeft + 1 } } (.inc p)
              { s with jobs := setJob s.jobs k { s.jobs k with parent := (s.jobs j).parent } }
            | none => s
          (ScheduleJob s k).1
        | none => s
      let s ←
        match (s.jobs j).parent with
        | some p => OnJobDone fuel s p
        | none => some s
      some (DeallocateJob s j)
    else
      some s

/-- The delete-list drain loop body of `JobSystem::DeleteOldJobs`
(runs with `m_allocMutex` held): unlink each record and return its
block to the pool. -/
def drainLoop : Nat → St → Option St
  | 0, s =>
    match s.deleteJobList with
    | none => some s
    | some _ => none
  | fuel+1, s =>
    match s.deleteJobList with
    | none => some s
    | some j =>
      let s := { s with deleteJobList := (s.jobs j).parent }
      let s := addLog { s with poolFreed := s.poolFreed ++ [j] } (.freed j)
      drainLoop fuel s

/-- Source `JobSystem::DeleteOldJobs`: under the pool mutex, drain the whole
delete list back to the pool and zero its count. -/
def DeleteOldJobs (fuel : Nat) (s : St) : Option St := do
  let s := addLog s .lockAlloc
  let s ← drainLoop fuel s
  some (addLog { s with deleteJobListCount := 0 } .unlockAlloc)

/-- Invoke the functor constructed in job `j`'s inline storage
(`(*job)()`); its behaviour is given by the environment. -/
def runFunctor (env : Env) (s : St) (j : Nat) : Option St :=
  match (s.jobs j).functorData with
  | none => none
  | some tag => do
    let s ← env tag (addLog s (.invoke j tag))
    some (addLog s (.ret j))

/-- Source `JobSystem::ExecuteJob`: run the functor, clear the ambient running
job, then run the completion protocol. -/
def ExecuteJob (env : Env) (fo : Nat) (s : St) (j : Nat) : Option St := do
  let s ← runFunctor env s j
  let s := { s with runningJob := none }
  OnJobDone fo s j

/-- The job-acquisition phase of `JobSystem::Work` (source lines
popping `m_localQueues[m_threadIndex]` and then stealing from
`m_globalQueues[(i + m_threadIndex) % m_threadCount]` for
`i = 0, 1, …` while no job was found). -/
def stealLoop : St → Option Nat → Nat → Nat → St × Option Nat
  | s, some j, _, _ => (s, some j)
  | s, none, _, 0 => (s, none)
  | s, none, i, k+1 =>
    let (s, j) := popQ s (.globalQ ((i + s.threadIndex) % s.threadCount))
    stealLoop s j (i+1) k

/-- Pop the own local queue, then round-robin over the global queues. -/
def popPhase (s : St) : St × Option Nat :=
  let (s, j) := popQ s (.localQ s.threadIndex)
  stealLoop s j 0 s.threadCount

/-- Source `JobSystem::Work`: acquire a job and execute it (returning `true`),
else drain a non-empty delete list (returning `false`), else return
`true` having found nothing. -/
def Work (env : Env) (fo fd : Nat) (s : St) : Option (St × Bool) :=
  let (s, j) := popPhase s
  let s := { s with runningJob := j }
  match j with
  | some j => do
    let s ← ExecuteJob env fo s j
    some (s, true)
  | none =>
    if s.deleteJobList ≠ none then do
      let s ← DeleteOldJobs fd s
      some (s, false)
    else
      some (s, true)

/-- Source `JobSystem::WaitFor`: bounded (≤ 1 ms) condvar wait. -/
def waitFor (s : St) : St := addLog s .wait

/-- One iteration of the `JobSystem::WorkerThread` loop: `Work()`, and
when it returned `true`, the bounded condvar wait. -/
def workerIter (env : Env) (fo fd : Nat) (s : St) : Option St := do
  let (s, b) ← Work env fo fd s
  some (if b then waitFor s else s)

/-- The inner wait loop of `JobSystem::RunJob`:
`while (job->m_jobsLeft > 1) { Work(); WaitFor(); }`. -/
def runJobWait (env : Env) (fo fd : Nat) : Nat → St → Nat → Option St
  | 0, s, j => if 1 < (s.jobs j).jobsLeft then none else some s
  | fuel+1, s, j =>
    if 1 < (s.jobs j).jobsLeft then do
      let (s, _) ← Work env fo fd s
      let s := waitFor s
      runJobWait env fo fd fuel s j
    else
      some s

/-- The outer `while (job)` loop of `JobSystem::RunJob`: run the
functor, snapshot the continuation, work-wait for descendants, clear the
continuation field, run the completion protocol, and iterate on the
snapshotted continuation. -/
def runJobLoop (env : Env) (fw fo fd : Nat) : Nat → St → Option Nat → Option St
  | _, s, none => some s
  | 0, _, some _ => none
  | fuel+1, s, some j => do
    let s := { s with runningJob := some j }
    let s ← runFunctor env s j
    let s := { s with runningJob := none }
    let cont := (s.jobs j).continuation
    let s ← runJobWait env fo fd fw s j
    let s := { s with jobs := setJob s.jobs j { s.jobs j with continuation := none } }
    let s ← OnJobDone fo s j
    runJobLoop env fw fo fd fuel s cont

/-- Source `JobSystem::RunJob`: assert no ambient running job, allocate the
root job, and run the continuation-chain loop. -/
def RunJob (env : Env) (fw fo fd fl : Nat) (s : St) (fc : Fctr) : Option St :=
  match s.runningJob with
  | some _ => none
  | none => do
    let (s, j) ← AllocateJob s fc
    runJobLoop env fw fo fd fl s (some j)

/-- An example base state: `n` workers, all queues empty, empty caches,
no ambient job, all heap addresses holding a freshly constructed record. -/
def st0 (n : Nat) : St :=
  { jobs := fun _ => mkJob 96
    nextAddr := 0
    localQueues := List.replicate n []
    globalQueues := List.replicate n []
    runningJob := none
    threadIndex := 0
    threadCount := n
    freeJobList := none
    freeJobListCount := 0
    deleteJobList := none
    deleteJobListCount := 0
    poolFreed := []
    notified := false
    log := [] }

/-! ## C5 — oversized functors are not rejected at submission -/
/-- Allocating a job for a functor of 200 bytes (larger than the
`128 - sizeof(Job) = 96`-byte inline capacity of a fresh block). -/
def oversizeAlloc : Option (St × Nat) := AllocateJob (st0 1) ⟨7, 200⟩

/-! ## C7 — what `Work()` returns, and when the worker waits -/
/-- An environment in which every functor is a no-op. -/
def idleEnv : Env := fun _ s => some s

/-- One worker-loop iteration from an idle two-worker state:
both queues empty, delete list empty. -/
def idleIter : Option St := workerIter idleEnv 4 4 (st0 2)

/-- A state with an ambient running job (address 5) on a single worker. -/
def stC2 : St := { st0 1 with runningJob := some 5 }

/-- The completion protocol exactly as C1 states it (comparison
definition, written from the claim text): atomically fetch-sub
`J.jobsLeft`, `prev` being the pre-decrement value; if `prev ≠ 1`, do
nothing more; if `prev = 1` then (a) when `J` has a continuation, first
(when `J` also has a parent) increment the parent's `jobsLeft` and set
the continuation's parent to `J`'s parent, then schedule the
continuation on the current worker's global queue (push and notify);
(b) recursively apply the protocol to `J`'s parent if any; (c) reset
and recycle `J`. -/
def specCompletionProtocol : Nat → St → Nat → Option St
  | 0, _, _ => none
  | fuel+1, s, j =>
    let prev := (s.jobs j).jobsLeft
    let s := addLog { s with jobs := setJob s.jobs j { s.jobs j with jobsLeft := prev - 1 } } (.dec j prev)
    if prev = 1 then do
      let s :=
        match (s.jobs j).continuation with
        | some k =>
          let s :=
            match (s.jobs j).parent with
            | some p =>
              let s := addLog { s with jobs := setJob s.jobs p { s.jobs p with jobsLeft := (s.jobs p).jobsLeft + 1 } } (.inc p)
              { s with jobs := setJob s.jobs k { s.jobs k with parent := some p } }
            | none => s
          addLog { pushQ s (.globalQ s.threadIndex) k with notified := true } .notify
        | none => s
      let s ←
        match (s.jobs j).parent with
        | some p => specCompletionProtocol fuel s p
        | none => some s
      some (DeallocateJob s j)
    else
      some s

/-- A concrete completion scenario: job 4 (counter at 1) has parent 6
(counter 2) and continuation 5. -/
def stC1 : St :=
  { st0 1 with jobs := fun a =>
      if a = 4 then ⟨some 6, some 5, true, 1, 96, some 9⟩
      else if a = 6 then ⟨none, none, false, 2, 96, none⟩
      else mkJob 96 }

/-! ## C4 — continuations are scheduled by the protocol, but RunJob runs them inline -/
/-- Events the completion protocol may emit (counter updates, the
continuation push/notify, reclamation).  Notably absent: `invoke`
(functor invocation), `freed`/`lockAlloc` (delete-list drains). -/
def protocolEv : Ev → Bool
  | .dec _ _ => true
  | .inc _ => true
  | .push _ _ => true
  | .notify => true
  | .reset _ => true
  | .toFree _ => true
  | .toDelete _ => true
  | _ => false

/-- Functor behaviours for the counterexample run: tag 1 installs a
continuation (tag 2, 24 bytes) on the ambient job; tag 2 is a no-op. -/
def env4 : Env := fun t s =>
  if t = 1 then Continuation s ⟨2, 24⟩
  else if t = 2 then some s
  else none

/-- Running `RunJob` on one worker with a root functor (tag 1) that installs a
continuation.  Job 0 is the root, job 1 the continuation. -/
def c4run : Option St := RunJob env4 4 4 4 4 (st0 1) ⟨1, 24⟩

/-- Evaluates to `true` when the log contains no push of job `a` to any queue. -/
def noPushOf (a : Nat) (l : List Ev) : Bool :=
  l.all fun e =>
    match e with
    | .push _ b => b != a
    | _ => true

/-- The state after completing job 4 of `stC1` (which carries
continuation 5). -/
def stC4res : St := (OnJobDone 3 stC1 4).getD stC1

/-- A single-worker state whose delete list holds job 3 (and nothing
queued). -/
def stDel : St := { st0 1 with deleteJobList := some 3, deleteJobListCount := 1 }

/-- Two workers; worker 0's local and global queues are empty, worker
1's global queue holds job 7. -/
def stC6 : St := { st0 2 with globalQueues := [[], [7]] }

/-! ## C9/C10 — allocation from the intrusive free list -/
/-- The contents of an intrusive list linked through the `parent`
field, read with bounded fuel: `none` when the list does not terminate
within the fuel. -/
def chain (h : Nat → JobRec) : Nat → Option Nat → Option (List Nat)
  | _, none => some []
  | 0, some _ => none
  | fuel+1, some j => (chain h fuel (h j).parent).map (j :: ·)

/-- A single-worker state whose free list holds job 7 (a reset
record). -/
def stFree : St := { st0 1 with freeJobList := some 7, freeJobListCount := 1 }

/-! ## Basic lemmas about the state primitives -/
@[simp] theorem setJob_self (h : Nat → JobRec) (a : Nat) (r : JobRec) :
    setJob h a r a = r := by
  simp [setJob]

theorem setJob_ne (h : Nat → JobRec) (a : Nat) (r : JobRec) (b : Nat)
    (hb : b ≠ a) : setJob h a r b = h b := by
  simp [setJob, hb]

theorem getD_set_self {α : Type} (l : List α) (i : Nat) (v d : α)
    (h : i < l.length) : (l.set i v).getD i d = v := by
  rw [List.getD_eq_getElem _ _ (by simpa using h)]
  simp [List.getElem_set, h]

theorem getD_set_ne {α : Type} (l : List α) (i k : Nat) (v d : α)
    (h : k ≠ i) : (l.set i v).getD k d = l.getD k d := by
  rcases Nat.lt_or_ge k l.length with hk | hk
  · rw [List.getD_eq_getElem _ _ (by simpa using hk),
        List.getD_eq_getElem _ _ hk]
    have h' : i ≠ k := fun e => h e.symm
    simp [List.getElem_set, h']
  · rw [List.getD_eq_default _ _ (by simpa using hk),
        List.getD_eq_default _ _ hk]

/-- C5: the spec demands that a functor whose byte size exceeds the
block's functor capacity fail with a fatal assertion at submission.  The
source performs no such check: `AllocateJob` hardcodes the capacity of a
fresh block and `Job::SetFunctor` placement-news the functor into the
inline storage unconditionally.  Evaluating the embedded code on a
200-byte functor: allocation succeeds, the record's capacity is 96
bytes, and the oversized functor ends up constructed (`functorActive`)
in the inline storage — an out-of-bounds write in the C++ source, with
no assertion anywhere on this path. -/
theorem oversize_functor_constructed_inline :
    (oversizeAlloc.map fun p =>
      ((p.1.jobs p.2).functorSize, (p.1.jobs p.2).functorData,
       (p.1.jobs p.2).functorActive)) = some (96, some 7, true) ∧
    (96 : Nat) < max 200 24 := by
  exact ⟨rfl, by decide⟩

/-- Counterexample to C7: from a state with no queued jobs and an empty
delete list, `Work()` returns `true` and the worker-loop iteration
performs the bounded condvar wait — the log shows the three empty pop
attempts followed by `wait`, with no job executed (no `popOk`/`invoke`)
and no housekeeping (no `lockAlloc`/`freed`).  The claim says the wait
happens exactly after "executed or housekeeping" and not when `Work()`
found nothing at all; the code waits in the idle case (and does not wait
after housekeeping). -/
theorem worker_waits_on_idle_cex :
    idleIter.map (fun s => s.log) =
      some [.popTry (.localQ 0), .popTry (.globalQ 0), .popTry (.globalQ 1), .wait] ∧
    (Work idleEnv 4 4 (st0 2)).map (fun p => p.2) = some true := by
  exact ⟨rfl, rfl⟩

/-! ## C2 — `Schedule` parents to the ambient running job -/
/-- C2: scheduling a job while an ambient job `r` is running, where the
new job `j` has no parent (and the submission is not detached): `j`'s
parent becomes `r`, `r`'s `jobsLeft` is incremented, `j` is pushed onto
the current worker's global queue, the condvar is notified and the
handle `j` is returned; the log shows the increment happening before
the push. -/
theorem schedule_parents_to_ambient (s : St) (j r : Nat)
    (hr : s.runningJob = some r) (hp : (s.jobs j).parent = none) (hne : j ≠ r)
    (ht : s.threadIndex < s.globalQueues.length) :
    (ScheduleJob s j).2 = j ∧
    ((ScheduleJob s j).1.jobs j).parent = some r ∧
    ((ScheduleJob s j).1.jobs r).jobsLeft = (s.jobs r).jobsLeft + 1 ∧
    getQ (ScheduleJob s j).1 (.globalQ s.threadIndex) =
      getQ s (.globalQ s.threadIndex) ++ [j] ∧
    (ScheduleJob s j).1.notified = true ∧
    (ScheduleJob s j).1.log =
      s.log ++ [.inc r, .push (.globalQ s.threadIndex) j, .notify] := by
  have hrj : r ≠ j := fun e => hne e.symm
  simp only [ScheduleJob, ScheduleRaw, hr, hp, pushQ, addLog, updQ, getQ]
  simp [setJob_self, setJob_ne _ _ _ _ hne, setJob_ne _ _ _ _ hrj,
        List.getElem?_set_eq_of_lt _ ht]

/-- Witness for C2 at a concrete input. -/
theorem schedule_parents_to_ambient_witness :
    (ScheduleJob stC2 3).2 = 3 ∧
    ((ScheduleJob stC2 3).1.jobs 3).parent = some 5 ∧
    ((ScheduleJob stC2 3).1.jobs 5).jobsLeft = (stC2.jobs 5).jobsLeft + 1 ∧
    getQ (ScheduleJob stC2 3).1 (.globalQ stC2.threadIndex) =
      getQ stC2 (.globalQ stC2.threadIndex) ++ [3] ∧
    (ScheduleJob stC2 3).1.notified = true ∧
    (ScheduleJob stC2 3).1.log =
      stC2.log ++ [.inc 5, .push (.globalQ stC2.threadIndex) 3, .notify] :=
  schedule_parents_to_ambient stC2 3 5 rfl rfl (by decide) (by decide)

/-! ## C1 — the completion protocol implements the specified steps -/
@[simp] theorem addLog_jobs (s : St) (e : Ev) : (addLog s e).jobs = s.jobs := rfl

@[simp] theorem addLog_runningJob (s : St) (e : Ev) :
    (addLog s e).runningJob = s.runningJob := rfl

@[simp] theorem addLog_threadIndex (s : St) (e : Ev) :
    (addLog s e).threadIndex = s.threadIndex := rfl

@[simp] theorem updQ_jobs (s : St) (q : QRef) (v : List Nat) :
    (updQ s q v).jobs = s.jobs := by
  cases q <;> rfl

@[simp] theorem updQ_runningJob (s : St) (q : QRef) (v : List Nat) :
    (updQ s q v).runningJob = s.runningJob := by
  cases q <;> rfl

@[simp] theorem updQ_threadIndex (s : St) (q : QRef) (v : List Nat) :
    (updQ s q v).threadIndex = s.threadIndex := by
  cases q <;> rfl

@[simp] theorem pushQ_jobs (s : St) (q : QRef) (j : Nat) :
    (pushQ s q j).jobs = s.jobs := by
  simp [pushQ]

@[simp] theorem pushQ_runningJob (s : St) (q : QRef) (j : Nat) :
    (pushQ s q j).runningJob = s.runningJob := by
  simp [pushQ]

/-- Scheduling via `Schedule(Job*)` with no ambient running job is exactly a push to
the current worker's global queue followed by the condvar notify. -/
theorem scheduleJob_no_ambient (s : St) (k : Nat) (h : s.runningJob = none) :
    (ScheduleJob s k).1 =
      addLog { pushQ s (.globalQ s.threadIndex) k with notified := true } .notify := by
  simp [ScheduleJob, ScheduleRaw, h]

/-- Updating one record's counter changes no record's parent field. -/
theorem setJob_counter_parent (h : Nat → JobRec) (p : Nat) (v : Int) (j : Nat) :
    (setJob h p { h p with jobsLeft := v } j).parent = (h j).parent := by
  by_cases hj : j = p
  · subst hj; simp
  · rw [setJob_ne _ _ _ _ hj]

set_option maxHeartbeats 1600000 in
/-- C1: run with no ambient running job (as at every call site: both
`ExecuteJob` and `RunJob` clear `m_runningJob` before the completion
protocol), `OnJobDone` coincides with the protocol of the claim at
every fuel. -/
theorem onJobDone_matches_spec (f : Nat) (s : St) (j : Nat)
    (hrun : s.runningJob = none) :
    OnJobDone f s j = specCompletionProtocol f s j := by
  induction f generalizing s j with
  | zero => rfl
  | succ f ih =>
    simp only [OnJobDone, specCompletionProtocol]
    by_cases hL : (s.jobs j).jobsLeft = 1
    · rw [if_pos hL, if_pos hL]
      set s1 := addLog { s with jobs := setJob s.jobs j { s.jobs j with jobsLeft := (s.jobs j).jobsLeft - 1 } } (Ev.dec j (s.jobs j).jobsLeft) with hs1
      have hrun1 : s1.runningJob = none := by rw [hs1]; simpa using hrun
      cases hc : (s1.jobs j).continuation with
      | none =>
        cases hp : (s1.jobs j).parent with
        | none => rfl
        | some p => simp only [ih, hrun1]
      | some k =>
        cases hp : (s1.jobs j).parent with
        | none =>
          simp only [scheduleJob_no_ambient, ih, addLog_runningJob,
            pushQ_runningJob, updQ_runningJob, hrun1]
        | some p =>
          simp only [addLog_jobs, setJob_counter_parent, hp,
            scheduleJob_no_ambient, ih, addLog_runningJob,
            pushQ_runningJob, updQ_runningJob, hrun1]
    · simp only [hL, if_false, reduceIte]

/-- Witness for C1 at a concrete input. -/
theorem onJobDone_matches_spec_witness :
    OnJobDone 3 stC1 4 = specCompletionProtocol 3 stC1 4 :=
  onJobDone_matches_spec 3 stC1 4 rfl

/-! ## C3 — continuation inheritance protects the parent -/
/-- C3: when job `j`'s counter reaches 1 and it has continuation `k` and
parent `p` (with `p` live, i.e. counter `n ≥ 1`): the completion step
sets `k`'s parent to `p`; `p`'s counter is incremented before the
bubble-up decrement lands (the decrement's logged pre-value is `n + 1`,
which includes the increment); `p`'s counter nets back to `n ≥ 1`, and
`p` is not reclaimed during the step (no `reset p` in the log extension)
even though `j` itself is (`reset j` is there).  `p` can therefore only
be reclaimed by a later bubble-up — the one `k` now accounts for. -/
theorem continuation_splice_protects_parent (f : Nat) (s : St) (j k p : Nat) (n : Int)
    (hrun : s.runningJob = none)
    (hj1 : (s.jobs j).jobsLeft = 1)
    (hjc : (s.jobs j).continuation = some k)
    (hjp : (s.jobs j).parent = some p)
    (hact : (s.jobs j).functorActive = true)
    (hpn : (s.jobs p).jobsLeft = n) (hn : 1 ≤ n)
    (hkj : k ≠ j) (hpj : p ≠ j) (hkp : k ≠ p) :
    ∃ s', OnJobDone (f+2) s j = some s' ∧
      (s'.jobs k).parent = some p ∧
      (s'.jobs p).jobsLeft = n ∧
      ∃ ext, s'.log = s.log ++ ext ∧
        Ev.inc p ∈ ext ∧ Ev.dec p (n+1) ∈ ext ∧
        Ev.reset j ∈ ext ∧ Ev.reset p ∉ ext := by
  have hjk : j ≠ k := fun e => hkj e.symm
  have hjp2 : j ≠ p := fun e => hpj e.symm
  have hpk : p ≠ k := fun e => hkp e.symm
  have hne1 : ¬((n+1 : Int) = 1) := by omega
  rcases Nat.lt_or_ge s.freeJobListCount 100 with hfc | hfc
  case inl =>
    have hfc2 : ¬(100 ≤ s.freeJobListCount) := by omega
    simp only [OnJobDone, ScheduleJob, ScheduleRaw, pushQ, updQ, getQ, addLog,
      DeallocateJob, resetRec, setJob_self, setJob_ne _ _ _ _ hkj,
      setJob_ne _ _ _ _ hpj, setJob_ne _ _ _ _ hjk, setJob_ne _ _ _ _ hjp2,
      setJob_ne _ _ _ _ hkp, setJob_ne _ _ _ _ hpk, hj1, hjc, hjp, hpn, hact,
      hrun, hne1, hfc2, if_true, if_false, reduceIte, Option.bind_eq_bind,
      Option.some_bind]
    refine ⟨_, rfl, ?_, ?_,
      ⟨[Ev.dec j 1, Ev.inc p, Ev.push (QRef.globalQ s.threadIndex) k,
        Ev.notify, Ev.dec p (n+1), Ev.reset j, Ev.toFree j], ?_, ?_, ?_, ?_, ?_⟩⟩
    · simp [setJob_ne _ _ _ _ hkj, setJob_self, setJob_ne _ _ _ _ hkp]
    · simp [setJob_ne _ _ _ _ hpj, setJob_self, setJob_ne _ _ _ _ hpk]
    · simp
    · simp
    · simp
    · simp
    · simp [hpj]
  case inr =>
    have hfc2 : 100 ≤ s.freeJobListCount := hfc
    simp only [OnJobDone, ScheduleJob, ScheduleRaw, pushQ, updQ, getQ, addLog,
      DeallocateJob, resetRec, setJob_self, setJob_ne _ _ _ _ hkj,
      setJob_ne _ _ _ _ hpj, setJob_ne _ _ _ _ hjk, setJob_ne _ _ _ _ hjp2,
      setJob_ne _ _ _ _ hkp, setJob_ne _ _ _ _ hpk, hj1, hjc, hjp, hpn, hact,
      hrun, hne1, hfc2, if_true, if_false, reduceIte, Option.bind_eq_bind,
      Option.some_bind]
    refine ⟨_, rfl, ?_, ?_,
      ⟨[Ev.dec j 1, Ev.inc p, Ev.push (QRef.globalQ s.threadIndex) k,
        Ev.notify, Ev.dec p (n+1), Ev.reset j, Ev.toDelete j], ?_, ?_, ?_, ?_, ?_⟩⟩
    · simp [setJob_ne _ _ _ _ hkj, setJob_self, setJob_ne _ _ _ _ hkp]
    · simp [setJob_ne _ _ _ _ hpj, setJob_self, setJob_ne _ _ _ _ hpk]
    · simp
    · simp
    · simp
    · simp
    · simp [hpj]

/-- Witness for C3 at a concrete input (the scenario of `stC1`). -/
theorem continuation_splice_protects_parent_witness :
    ∃ s', OnJobDone (1+2) stC1 4 = some s' ∧
      (s'.jobs 5).parent = some 6 ∧
      (s'.jobs 6).jobsLeft = 2 ∧
      ∃ ext, s'.log = stC1.log ++ ext ∧
        Ev.inc 6 ∈ ext ∧ Ev.dec 6 (2+1) ∈ ext ∧
        Ev.reset 4 ∈ ext ∧ Ev.reset 6 ∉ ext :=
  continuation_splice_protects_parent 1 stC1 4 5 6 2 rfl (by decide) (by decide)
    (by decide) (by decide) (by decide) (by decide) (by decide) (by decide)
    (by decide)

theorem dealloc_log_ext (s : St) (j : Nat) :
    ∃ ext, (DeallocateJob s j).log = s.log ++ ext ∧
      ∀ e ∈ ext, protocolEv e = true := by
  by_cases h : 100 ≤ s.freeJobListCount
  · refine ⟨[.reset j, .toDelete j], ?_, ?_⟩
    · simp [DeallocateJob, addLog, h]
    · simp [protocolEv]
  · refine ⟨[.reset j, .toFree j], ?_, ?_⟩
    · simp [DeallocateJob, addLog, h]
    · simp [protocolEv]

theorem scheduleJob_log_ext (s : St) (k : Nat) :
    ∃ ext, ((ScheduleJob s k).1).log = s.log ++ ext ∧
      Ev.push (.globalQ s.threadIndex) k ∈ ext ∧
      ∀ e ∈ ext, protocolEv e = true := by
  rcases hr : s.runningJob with _ | r
  · refine ⟨[.push (.globalQ s.threadIndex) k, .notify], ?_, ?_, ?_⟩
    · simp [ScheduleJob, ScheduleRaw, hr, pushQ, addLog, updQ, getQ]
    · simp
    · simp [protocolEv]
  · by_cases hc : (s.jobs k).parent = none
    · refine ⟨[.inc r, .push (.globalQ s.threadIndex) k, .notify], ?_, ?_, ?_⟩
      · simp [ScheduleJob, ScheduleRaw, hr, hc, pushQ, addLog, updQ, getQ]
      · simp
      · simp [protocolEv]
    · refine ⟨[.push (.globalQ s.threadIndex) k, .notify], ?_, ?_, ?_⟩
      · simp [ScheduleJob, ScheduleRaw, hr, hc, pushQ, addLog, updQ, getQ]
      · simp
      · simp [protocolEv]

/-- Every successful run of the completion protocol only appends
protocol events to the log: in particular it never invokes a functor
and never drains the delete list. -/
theorem onJobDone_log_extension : ∀ (f : Nat) (s : St) (j : Nat) (s' : St),
    OnJobDone f s j = some s' →
    ∃ ext, s'.log = s.log ++ ext ∧ ∀ e ∈ ext, protocolEv e = true := by
  intro f
  induction f with
  | zero => intro s j s' h; exact absurd h (by simp [OnJobDone])
  | succ f ih =>
    intro s j s' h
    rw [OnJobDone] at h
    by_cases hL : (s.jobs j).jobsLeft = 1
    · rw [if_pos hL] at h
      set s1 := addLog { s with jobs := setJob s.jobs j { s.jobs j with jobsLeft := (s.jobs j).jobsLeft - 1 } } (Ev.dec j (s.jobs j).jobsLeft) with hs1
      have hlog1 : s1.log = s.log ++ [Ev.dec j (s.jobs j).jobsLeft] := by
        rw [hs1]; rfl
      have hone : protocolEv (Ev.dec j (s.jobs j).jobsLeft) = true := rfl
      cases hc : (s1.jobs j).continuation with
      | none =>
        cases hp : (s1.jobs j).parent with
        | none =>
          simp only [hc, hp, Option.bind_eq_bind, Option.some_bind] at h
          obtain ⟨ext3, hlog3, hall3⟩ := dealloc_log_ext s1 j
          cases h
          refine ⟨[Ev.dec j (s.jobs j).jobsLeft] ++ ext3, ?_, ?_⟩
          · rw [hlog3, hlog1, List.append_assoc]
          · exact List.forall_mem_append.mpr ⟨by simpa using hone, hall3⟩
        | some p =>
          simp only [hc, hp, Option.bind_eq_bind] at h
          cases hmid : OnJobDone f s1 p with
          | none => rw [hmid] at h; simp at h
          | some s2 =>
            rw [hmid] at h
            simp only [Option.some_bind] at h
            cases h
            obtain ⟨ext2, hlog2, hall2⟩ := ih s1 p s2 hmid
            obtain ⟨ext3, hlog3, hall3⟩ := dealloc_log_ext s2 j
            refine ⟨[Ev.dec j (s.jobs j).jobsLeft] ++ ext2 ++ ext3, ?_, ?_⟩
            · rw [hlog3, hlog2, hlog1]; simp [List.append_assoc]
            · exact List.forall_mem_append.mpr
                ⟨List.forall_mem_append.mpr ⟨by simpa using hone, hall2⟩, hall3⟩
      | some k =>
        cases hp : (s1.jobs j).parent with
        | none =>
          simp only [hc, hp, Option.bind_eq_bind] at h
          obtain ⟨ext2, hlog2, hpm2, hall2⟩ := scheduleJob_log_ext s1 k
          cases hp2 : (((ScheduleJob s1 k).1).jobs j).parent with
          | none =>
            rw [hp2] at h
            dsimp only at h
            simp only [Option.some_bind] at h
            cases h
            obtain ⟨ext3, hlog3, hall3⟩ := dealloc_log_ext ((ScheduleJob s1 k).1) j
            refine ⟨[Ev.dec j (s.jobs j).jobsLeft] ++ ext2 ++ ext3, ?_, ?_⟩
            · rw [hlog3, hlog2, hlog1]; simp [List.append_assoc]
            · exact List.forall_mem_append.mpr
                ⟨List.forall_mem_append.mpr ⟨by simpa using hone, hall2⟩, hall3⟩
          | some p2 =>
            rw [hp2] at h
            dsimp only at h
            cases hmid : OnJobDone f ((ScheduleJob s1 k).1) p2 with
            | none => rw [hmid] at h; simp at h
            | some s2 =>
              rw [hmid] at h
              simp only [Option.some_bind] at h
              cases h
              obtain ⟨extm, hlogm, hallm⟩ := ih _ p2 s2 hmid
              obtain ⟨ext3, hlog3, hall3⟩ := dealloc_log_ext s2 j
              refine ⟨[Ev.dec j (s.jobs j).jobsLeft] ++ ext2 ++ extm ++ ext3, ?_, ?_⟩
              · rw [hlog3, hlogm, hlog2, hlog1]; simp [List.append_assoc]
              · refine List.forall_mem_append.mpr
                  ⟨List.forall_mem_append.mpr
                    ⟨List.forall_mem_append.mpr ⟨by simpa using hone, hall2⟩, hallm⟩, hall3⟩
        | some p =>
          simp only [hc, hp, Option.bind_eq_bind] at h
          set sB := { (addLog { s1 with jobs := setJob s1.jobs p { s1.jobs p with jobsLeft := (s1.jobs p).jobsLeft + 1 } } (Ev.inc p)) with jobs := setJob (addLog { s1 with jobs := setJob s1.jobs p { s1.jobs p with jobsLeft := (s1.jobs p).jobsLeft + 1 } } (Ev.inc p)).jobs k { (addLog { s1 with jobs := setJob s1.jobs p { s1.jobs p with jobsLeft := (s1.jobs p).jobsLeft + 1 } } (Ev.inc p)).jobs k with parent := ((addLog { s1 with jobs := setJob s1.jobs p { s1.jobs p with jobsLeft := (s1.jobs p).jobsLeft + 1 } } (Ev.inc p)).jobs j).parent } } with hsB
          have hlogB : sB.log = s1.log ++ [Ev.inc p] := by rw [hsB]; rfl
          obtain ⟨ext2, hlog2, hpm2, hall2⟩ := scheduleJob_log_ext sB k
          cases hp2 : (((ScheduleJob sB k).1).jobs j).parent with
          | none =>
            rw [hp2] at h
            dsimp only at h
            simp only [Option.some_bind] at h
            cases h
            obtain ⟨ext3, hlog3, hall3⟩ := dealloc_log_ext ((ScheduleJob sB k).1) j
            refine ⟨[Ev.dec j (s.jobs j).jobsLeft] ++ ([Ev.inc p] ++ ext2) ++ ext3, ?_, ?_⟩
            · rw [hlog3, hlog2, hlogB, hlog1]; simp [List.append_assoc]
            · refine List.forall_mem_append.mpr
                ⟨List.forall_mem_append.mpr ⟨by simpa using hone,
                  List.forall_mem_append.mpr ⟨by simp [protocolEv], hall2⟩⟩, hall3⟩
          | some p2 =>
            rw [hp2] at h
            dsimp only at h
            cases hmid : OnJobDone f ((ScheduleJob sB k).1) p2 with
            | none => rw [hmid] at h; simp at h
            | some s2 =>
              rw [hmid] at h
              simp only [Option.some_bind] at h
              cases h
              obtain ⟨extm, hlogm, hallm⟩ := ih _ p2 s2 hmid
              obtain ⟨ext3, hlog3, hall3⟩ := dealloc_log_ext s2 j
              refine ⟨[Ev.dec j (s.jobs j).jobsLeft] ++ ([Ev.inc p] ++ ext2) ++ extm ++ ext3, ?_, ?_⟩
              · rw [hlog3, hlogm, hlog2, hlogB, hlog1]; simp [List.append_assoc]
              · refine List.forall_mem_append.mpr
                  ⟨List.forall_mem_append.mpr
                    ⟨List.forall_mem_append.mpr ⟨by simpa using hone,
                      List.forall_mem_append.mpr ⟨by simp [protocolEv], hall2⟩⟩, hallm⟩, hall3⟩
    · rw [if_neg hL] at h
      refine ⟨[Ev.dec j (s.jobs j).jobsLeft], ?_, ?_⟩
      · cases h; rfl
      · simp [protocolEv]

/-- C4 (amended): when a job `j` whose counter is at 1 completes
through the completion protocol (`OnJobDone`) and carries a
continuation `k`, the step pushes `k` onto the current worker's global
queue, and the whole step emits only protocol events — in particular it
invokes no functor, so `k` is scheduled, never run inline, by the
protocol.  (The root chain of `RunJob` completes outside the protocol:
`RunJob` clears the continuation field before calling `OnJobDone` and
runs the continuation inline in its own loop; see the counterexample.) -/
theorem onJobDone_schedules_continuation (f : Nat) (s : St) (j k : Nat) (s' : St)
    (hj1 : (s.jobs j).jobsLeft = 1)
    (hjc : (s.jobs j).continuation = some k)
    (h : OnJobDone f s j = some s') :
    ∃ ext, s'.log = s.log ++ ext ∧
      Ev.push (.globalQ s.threadIndex) k ∈ ext ∧
      ∀ e ∈ ext, protocolEv e = true := by
  cases f with
  | zero => exact absurd h (by simp [OnJobDone])
  | succ f =>
    rw [OnJobDone, if_pos hj1] at h
    set s1 := addLog { s with jobs := setJob s.jobs j { s.jobs j with jobsLeft := (s.jobs j).jobsLeft - 1 } } (Ev.dec j (s.jobs j).jobsLeft) with hs1
    have hlog1 : s1.log = s.log ++ [Ev.dec j (s.jobs j).jobsLeft] := by
      rw [hs1]; rfl
    have hti1 : s1.threadIndex = s.threadIndex := by rw [hs1]; rfl
    have hone : protocolEv (Ev.dec j (s.jobs j).jobsLeft) = true := rfl
    have hc : (s1.jobs j).continuation = some k := by
      rw [hs1]; simpa [addLog, setJob] using hjc
    rw [hc] at h
    dsimp only at h
    cases hp : (s1.jobs j).parent with
    | none =>
      rw [hp] at h
      dsimp only at h
      obtain ⟨ext2, hlog2, hpm2, hall2⟩ := scheduleJob_log_ext s1 k
      cases hp2 : (((ScheduleJob s1 k).1).jobs j).parent with
      | none =>
        rw [hp2] at h
        dsimp only at h
        simp only [Option.bind_eq_bind, Option.some_bind] at h
        cases h
        obtain ⟨ext3, hlog3, hall3⟩ := dealloc_log_ext ((ScheduleJob s1 k).1) j
        refine ⟨[Ev.dec j (s.jobs j).jobsLeft] ++ ext2 ++ ext3, ?_, ?_, ?_⟩
        · rw [hlog3, hlog2, hlog1]; simp [List.append_assoc]
        · rw [hti1] at hpm2; simp [hpm2]
        · exact List.forall_mem_append.mpr
            ⟨List.forall_mem_append.mpr ⟨by simpa using hone, hall2⟩, hall3⟩
      | some p2 =>
        rw [hp2] at h
        dsimp only at h
        cases hmid : OnJobDone f ((ScheduleJob s1 k).1) p2 with
        | none => rw [hmid] at h; simp at h
        | some s2 =>
          rw [hmid] at h
          simp only [Option.bind_eq_bind, Option.some_bind] at h
          cases h
          obtain ⟨extm, hlogm, hallm⟩ := onJobDone_log_extension f _ p2 s2 hmid
          obtain ⟨ext3, hlog3, hall3⟩ := dealloc_log_ext s2 j
          refine ⟨[Ev.dec j (s.jobs j).jobsLeft] ++ ext2 ++ extm ++ ext3, ?_, ?_, ?_⟩
          · rw [hlog3, hlogm, hlog2, hlog1]; simp [List.append_assoc]
          · rw [hti1] at hpm2; simp [hpm2]
          · refine List.forall_mem_append.mpr
              ⟨List.forall_mem_append.mpr
                ⟨List.forall_mem_append.mpr ⟨by simpa using hone, hall2⟩, hallm⟩, hall3⟩
    | some p =>
      rw [hp] at h
      dsimp only at h
      set sB := { (addLog { s1 with jobs := setJob s1.jobs p { s1.jobs p with jobsLeft := (s1.jobs p).jobsLeft + 1 } } (Ev.inc p)) with jobs := setJob (addLog { s1 with jobs := setJob s1.jobs p { s1.jobs p with jobsLeft := (s1.jobs p).jobsLeft + 1 } } (Ev.inc p)).jobs k { (addLog { s1 with jobs := setJob s1.jobs p { s1.jobs p with jobsLeft := (s1.jobs p).jobsLeft + 1 } } (Ev.inc p)).jobs k with parent := ((addLog { s1 with jobs := setJob s1.jobs p { s1.jobs p with jobsLeft := (s1.jobs p).jobsLeft + 1 } } (Ev.inc p)).jobs j).parent } } with hsB
      have hlogB : sB.log = s1.log ++ [Ev.inc p] := by rw [hsB]; rfl
      have htiB : sB.threadIndex = s.threadIndex := by rw [hsB, hs1]; rfl
      obtain ⟨ext2, hlog2, hpm2, hall2⟩ := scheduleJob_log_ext sB k
      cases hp2 : (((ScheduleJob sB k).1).jobs j).parent with
      | none =>
        rw [hp2] at h
        dsimp only at h
        simp only [Option.bind_eq_bind, Option.some_bind] at h
        cases h
        obtain ⟨ext3, hlog3, hall3⟩ := dealloc_log_ext ((ScheduleJob sB k).1) j
        refine ⟨[Ev.dec j (s.jobs j).jobsLeft] ++ ([Ev.inc p] ++ ext2) ++ ext3, ?_, ?_, ?_⟩
        · rw [hlog3, hlog2, hlogB, hlog1]; simp [List.append_assoc]
        · rw [htiB] at hpm2; simp [hpm2]
        · refine List.forall_mem_append.mpr
            ⟨List.forall_mem_append.mpr ⟨by simpa using hone,
              List.forall_mem_append.mpr ⟨by simp [protocolEv], hall2⟩⟩, hall3⟩
      | some p2 =>
        rw [hp2] at h
        dsimp only at h
        cases hmid : OnJobDone f ((ScheduleJob sB k).1) p2 with
        | none => rw [hmid] at h; simp at h
        | some s2 =>
          rw [hmid] at h
          simp only [Option.bind_eq_bind, Option.some_bind] at h
          cases h
          obtain ⟨extm, hlogm, hallm⟩ := onJobDone_log_extension f _ p2 s2 hmid
          obtain ⟨ext3, hlog3, hall3⟩ := dealloc_log_ext s2 j
          refine ⟨[Ev.dec j (s.jobs j).jobsLeft] ++ ([Ev.inc p] ++ ext2) ++ extm ++ ext3, ?_, ?_, ?_⟩
          · rw [hlog3, hlogm, hlog2, hlogB, hlog1]; simp [List.append_assoc]
          · rw [htiB] at hpm2; simp [hpm2]
          · refine List.forall_mem_append.mpr
              ⟨List.forall_mem_append.mpr
                ⟨List.forall_mem_append.mpr ⟨by simpa using hone,
                  List.forall_mem_append.mpr ⟨by simp [protocolEv], hall2⟩⟩, hallm⟩, hall3⟩

/-- Counterexample to C4 as stated: for the job passed to `RunJob`, the
continuation is *not* scheduled.  In this run the continuation (job 1)
has its functor invoked (`invoke 1 2` is in the log) although no queue
ever received it (no `push` of job 1 anywhere in the log): `RunJob`
nulls the root's continuation field before running the completion
protocol and invokes the continuation inline in its own loop.  Only
jobs 0 and 1 were ever allocated (`nextAddr = 2`). -/
theorem runJob_runs_continuation_inline_cex :
    c4run.map (fun s => (s.log.contains (Ev.invoke 1 2), noPushOf 1 s.log, s.nextAddr))
      = some (true, true, 2) := by
  rfl

/-- Witness for the amended C4 at a concrete input. -/
theorem onJobDone_schedules_continuation_witness :
    ∃ ext, stC4res.log = stC1.log ++ ext ∧
      Ev.push (.globalQ stC1.threadIndex) 5 ∈ ext ∧
      ∀ e ∈ ext, protocolEv e = true :=
  onJobDone_schedules_continuation 3 stC1 4 5 stC4res (by decide) (by decide) rfl

/-! ## C7 — `Work`'s return value and the worker's wait -/
@[simp] theorem addLog_deleteJobList (s : St) (e : Ev) :
    (addLog s e).deleteJobList = s.deleteJobList := rfl

@[simp] theorem updQ_deleteJobList (s : St) (q : QRef) (v : List Nat) :
    (updQ s q v).deleteJobList = s.deleteJobList := by
  cases q <;> rfl

@[simp] theorem addLog_getQ (s : St) (e : Ev) (q : QRef) :
    getQ (addLog s e) q = getQ s q := by
  cases q <;> rfl

theorem popQ_empty (s : St) (q : QRef) (h : getQ s q = []) :
    popQ s q = (addLog s (.popTry q), none) := by
  rw [popQ]
  simp only [addLog_getQ, h]

theorem popQ_cons (s : St) (q : QRef) (j : Nat) (rest : List Nat)
    (h : getQ s q = j :: rest) :
    popQ s q = (addLog (updQ (addLog s (.popTry q)) q rest) (.popOk q j), some j) := by
  rw [popQ]
  simp only [addLog_getQ, h]

theorem popQ_deleteJobList (s : St) (q : QRef) :
    ((popQ s q).1).deleteJobList = s.deleteJobList := by
  rw [popQ]
  rcases h : getQ (addLog s (.popTry q)) q with _ | ⟨j, rest⟩ <;> simp [h]

theorem stealLoop_deleteJobList : ∀ (k : Nat) (s : St) (j : Option Nat) (i : Nat),
    ((stealLoop s j i k).1).deleteJobList = s.deleteJobList := by
  intro k
  induction k with
  | zero => intro s j i; cases j <;> rfl
  | succ k ih =>
    intro s j i
    cases j with
    | some j => rfl
    | none =>
      rw [stealLoop]
      rcases hp : popQ s (.globalQ ((i + s.threadIndex) % s.threadCount)) with ⟨s2, j2⟩
      have := popQ_deleteJobList s (.globalQ ((i + s.threadIndex) % s.threadCount))
      rw [hp] at this
      simp only [ih]
      exact this

theorem popPhase_deleteJobList (s : St) :
    ((popPhase s).1).deleteJobList = s.deleteJobList := by
  rw [popPhase]
  rcases hp : popQ s (.localQ s.threadIndex) with ⟨s2, j2⟩
  have := popQ_deleteJobList s (.localQ s.threadIndex)
  rw [hp] at this
  simp only [stealLoop_deleteJobList]
  exact this

/-- C7 (amended): `Work()` returns `true` both when it executed a job
and when it found neither a job nor delete-list entries (idle); it
returns `false` exactly when it obtained no job and drained the
non-empty delete list; and the worker-loop iteration performs the
bounded condvar wait exactly when `Work()` returned `true` — i.e. after
executing a job or when idle, but not after draining the delete list. -/
theorem work_return_and_wait (env : Env) (fo fd : Nat) (s : St) :
    (∀ j, (popPhase s).2 = some j →
       ∀ s' b, Work env fo fd s = some (s', b) → b = true) ∧
    ((popPhase s).2 = none → s.deleteJobList ≠ none →
       ∀ s' b, Work env fo fd s = some (s', b) → b = false) ∧
    ((popPhase s).2 = none → s.deleteJobList = none →
       Work env fo fd s = some ({ (popPhase s).1 with runningJob := none }, true)) ∧
    (∀ s' b, Work env fo fd s = some (s', b) →
       workerIter env fo fd s = some (if b then waitFor s' else s')) := by
  rcases hpp : popPhase s with ⟨s1, j1⟩
  have hdel : s1.deleteJobList = s.deleteJobList := by
    have := popPhase_deleteJobList s
    rw [hpp] at this
    exact this
  refine ⟨?_, ?_, ?_, ?_⟩
  · intro j hj s' b h
    simp only at hj
    subst hj
    simp only [Work, hpp] at h
    cases hex : ExecuteJob env fo { s1 with runningJob := some j } j with
    | none => rw [hex] at h; simp at h
    | some s2 =>
      rw [hex] at h
      simp only [Option.bind_eq_bind, Option.some_bind, Option.some.injEq] at h
      have := congrArg Prod.snd h
      simpa using this.symm
  · intro hj hd s' b h
    simp only at hj
    subst hj
    simp only [Work, hpp] at h
    have hd1 : ({ s1 with runningJob := (none : Option Nat) }).deleteJobList ≠ none := by
      simpa [hdel] using hd
    rw [if_pos hd1] at h
    cases hdo : DeleteOldJobs fd { s1 with runningJob := none } with
    | none => rw [hdo] at h; simp at h
    | some s2 =>
      rw [hdo] at h
      simp only [Option.bind_eq_bind, Option.some_bind, Option.some.injEq] at h
      have := congrArg Prod.snd h
      simpa using this.symm
  · intro hj hd
    simp only at hj
    subst hj
    simp only [Work, hpp]
    have hd1 : ¬(({ s1 with runningJob := (none : Option Nat) }).deleteJobList ≠ none) := by
      simp [hdel, hd]
    rw [if_neg hd1]
  · intro s' b h
    rw [workerIter, h]
    rfl

/-- Witness for the amended C7 at a concrete input: with no job to pop
and a non-empty delete list, `Work` returns `false` (no wait). -/
theorem work_return_and_wait_witness :
    ((Work idleEnv 4 4 stDel).getD (stDel, true)).2 = false :=
  (work_return_and_wait idleEnv 4 4 stDel).2.1 rfl (by decide)
    ((Work idleEnv 4 4 stDel).getD (stDel, true)).1
    ((Work idleEnv 4 4 stDel).getD (stDel, true)).2 rfl

/-! ## C8 — reclamation policy and delete-list drains -/
theorem drainLoop_spec : ∀ (fd : Nat) (s0 s2 : St), drainLoop fd s0 = some s2 →
    ∃ mid, s2.log = s0.log ++ mid ∧ (∀ e ∈ mid, ∃ a, e = Ev.freed a) ∧
      s2.deleteJobList = none := by
  intro fd
  induction fd with
  | zero =>
    intro s0 s2 h
    rw [drainLoop] at h
    cases hd : s0.deleteJobList with
    | none =>
      rw [hd] at h
      simp only [Option.some.injEq] at h
      subst h
      exact ⟨[], by simp, by simp, hd⟩
    | some j => rw [hd] at h; simp at h
  | succ fd ih =>
    intro s0 s2 h
    rw [drainLoop] at h
    cases hd : s0.deleteJobList with
    | none =>
      rw [hd] at h
      simp only [Option.some.injEq] at h
      subst h
      exact ⟨[], by simp, by simp, hd⟩
    | some j =>
      rw [hd] at h
      dsimp only at h
      obtain ⟨mid, hlog, hall, hnil⟩ := ih _ _ h
      refine ⟨[Ev.freed j] ++ mid, ?_, ?_, hnil⟩
      · rw [hlog]; simp [addLog, List.append_assoc]
      · refine List.forall_mem_append.mpr ⟨?_, hall⟩
        simp

/-- C8: reclamation and drain policy.  (1)/(2): `DeallocateJob` resets
the record, then pushes it onto the thread-local free list when that
list holds fewer than 100 entries, and diverts it to the delete list
(linked through the reset record's parent field) when it already holds
100 or more.  (3)/(4): in `Work`, the delete list is drained exactly
when no job was obtained and the list is non-empty.  (5): a drain runs
entirely between the pool-mutex acquire and release, emits only
`freed` events (blocks returned to the pool), and empties the list. -/
theorem reclamation_policy (env : Env) (fo fd : Nat) (s : St) (j : Nat) :
    (s.freeJobListCount < 100 →
       DeallocateJob s j =
         { s with jobs := setJob (setJob s.jobs j (resetRec (s.jobs j))) j
                    { resetRec (s.jobs j) with parent := s.freeJobList },
                  freeJobList := some j,
                  freeJobListCount := s.freeJobListCount + 1,
                  log := s.log ++ [.reset j, .toFree j] }) ∧
    (100 ≤ s.freeJobListCount →
       DeallocateJob s j =
         { s with jobs := setJob (setJob s.jobs j (resetRec (s.jobs j))) j
                    { resetRec (s.jobs j) with parent := s.deleteJobList },
                  deleteJobList := some j,
                  deleteJobListCount := s.deleteJobListCount + 1,
                  log := s.log ++ [.reset j, .toDelete j] }) ∧
    ((popPhase s).2 = none → s.deleteJobList ≠ none →
       Work env fo fd s =
         (DeleteOldJobs fd { (popPhase s).1 with runningJob := none }).map
           (fun s2 => (s2, false))) ∧
    ((popPhase s).2 = none → s.deleteJobList = none →
       Work env fo fd s = some ({ (popPhase s).1 with runningJob := none }, true)) ∧
    (∀ (fd2 : Nat) (s0 s2 : St), DeleteOldJobs fd2 s0 = some s2 →
       ∃ mid, s2.log = s0.log ++ [Ev.lockAlloc] ++ mid ++ [Ev.unlockAlloc] ∧
         (∀ e ∈ mid, ∃ a, e = Ev.freed a) ∧
         s2.deleteJobList = none ∧ s2.deleteJobListCount = 0) := by
  refine ⟨?_, ?_, ?_, ?_, ?_⟩
  · intro h
    have h2 : ¬(100 ≤ s.freeJobListCount) := by omega
    simp [DeallocateJob, addLog, h2, setJob_self]
  · intro h
    simp [DeallocateJob, addLog, h, setJob_self]
  · rcases hpp : popPhase s with ⟨s1, j1⟩
    intro hj hd
    simp only at hj
    subst hj
    have hdel : s1.deleteJobList = s.deleteJobList := by
      have := popPhase_deleteJobList s
      rw [hpp] at this
      exact this
    simp only [Work, hpp]
    have hd1 : ({ s1 with runningJob := (none : Option Nat) }).deleteJobList ≠ none := by
      simpa [hdel] using hd
    rw [if_pos hd1]
    cases hdo : DeleteOldJobs fd { s1 with runningJob := none } with
    | none => simp
    | some s2 => simp
  · rcases hpp : popPhase s with ⟨s1, j1⟩
    intro hj hd
    simp only at hj
    subst hj
    have hdel : s1.deleteJobList = s.deleteJobList := by
      have := popPhase_deleteJobList s
      rw [hpp] at this
      exact this
    simp only [Work, hpp]
    have hd1 : ¬(({ s1 with runningJob := (none : Option Nat) }).deleteJobList ≠ none) := by
      simp [hdel, hd]
    rw [if_neg hd1]
  · intro fd2 s0 s2 h
    rw [DeleteOldJobs] at h
    cases hdr : drainLoop fd2 (addLog s0 .lockAlloc) with
    | none => rw [hdr] at h; simp at h
    | some s3 =>
      rw [hdr] at h
      simp only [Option.bind_eq_bind, Option.some_bind, Option.some.injEq] at h
      subst h
      obtain ⟨mid, hlog, hall, hnil⟩ := drainLoop_spec fd2 _ _ hdr
      refine ⟨mid, ?_, hall, by simpa [addLog] using hnil, rfl⟩
      simp [addLog] at hlog
      simp [addLog, hlog, List.append_assoc]

/-- Witness for C8 at a concrete input: reclaiming job 3 from the base
state (free list below threshold) pushes it onto the free list. -/
theorem reclamation_policy_witness :
    DeallocateJob (st0 1) 3 =
      { st0 1 with jobs := setJob (setJob (st0 1).jobs 3 (resetRec ((st0 1).jobs 3))) 3
                     { resetRec ((st0 1).jobs 3) with parent := (st0 1).freeJobList },
                   freeJobList := some 3,
                   freeJobListCount := (st0 1).freeJobListCount + 1,
                   log := (st0 1).log ++ [.reset 3, .toFree 3] } :=
  (reclamation_policy idleEnv 4 4 (st0 1) 3).1 (by decide)

/-! ## C6 — deterministic pop order in `Work` -/
@[simp] theorem addLog_localQueues (s : St) (e : Ev) :
    (addLog s e).localQueues = s.localQueues := rfl

@[simp] theorem addLog_globalQueues (s : St) (e : Ev) :
    (addLog s e).globalQueues = s.globalQueues := rfl

@[simp] theorem addLog_threadCount (s : St) (e : Ev) :
    (addLog s e).threadCount = s.threadCount := rfl

@[simp] theorem updQ_global_localQueues (s : St) (i : Nat) (v : List Nat) :
    (updQ s (.globalQ i) v).localQueues = s.localQueues := rfl

@[simp] theorem updQ_global_globalQueues (s : St) (i : Nat) (v : List Nat) :
    (updQ s (.globalQ i) v).globalQueues = s.globalQueues.set i v := rfl

@[simp] theorem updQ_local_localQueues (s : St) (i : Nat) (v : List Nat) :
    (updQ s (.localQ i) v).localQueues = s.localQueues.set i v := rfl

@[simp] theorem updQ_local_globalQueues (s : St) (i : Nat) (v : List Nat) :
    (updQ s (.localQ i) v).globalQueues = s.globalQueues := rfl

@[simp] theorem updQ_threadCount (s : St) (q : QRef) (v : List Nat) :
    (updQ s q v).threadCount = s.threadCount := by
  cases q <;> rfl

theorem stealLoop_some (s : St) (j i k : Nat) :
    stealLoop s (some j) i k = (s, some j) := by
  cases k <;> rfl

theorem stealLoop_finds (t N : Nat) :
    ∀ (k i io : Nat) (s : St) (j : Nat) (rest : List Nat),
    s.threadIndex = t → s.threadCount = N →
    i + k = N →
    i ≤ io → io < N →
    (∀ i2, i ≤ i2 → i2 < io → getQ s (.globalQ ((i2 + t) % N)) = []) →
    getQ s (.globalQ ((io + t) % N)) = j :: rest →
    (stealLoop s none i k).2 = some j ∧
    (stealLoop s none i k).1.globalQueues = s.globalQueues.set ((io + t) % N) rest ∧
    (stealLoop s none i k).1.localQueues = s.localQueues := by
  intro k
  induction k with
  | zero =>
    intro i io s j rest hti htc hik hio hioN hempty hq
    omega
  | succ k ih =>
    intro i io s j rest hti htc hik hio hioN hempty hq
    rw [stealLoop, hti, htc]
    rcases Nat.lt_or_ge i io with hlt | hge
    · have hqe : getQ s (.globalQ ((i + t) % N)) = [] :=
        hempty i (Nat.le_refl i) hlt
      rw [popQ_empty s _ hqe]
      dsimp only
      have hres := ih (i+1) io (addLog s (.popTry (.globalQ ((i + t) % N)))) j rest
        (by simp [hti]) (by simp [htc]) (by omega) (by omega) hioN
        (by intro i2 h1 h2; simpa using hempty i2 (by omega) h2)
        (by simpa using hq)
      simpa using hres
    · have hie : i = io := by omega
      subst hie
      rw [popQ_cons s _ j rest hq]
      dsimp only
      rw [stealLoop_some]
      refine ⟨rfl, ?_, ?_⟩ <;> simp [addLog, updQ]

theorem stealLoop_none (t N : Nat) :
    ∀ (k i : Nat) (s : St),
    s.threadIndex = t → s.threadCount = N →
    i + k = N →
    (∀ i2, i ≤ i2 → i2 < N → getQ s (.globalQ ((i2 + t) % N)) = []) →
    (stealLoop s none i k).2 = none := by
  intro k
  induction k with
  | zero => intro i s _ _ _ _; rfl
  | succ k ih =>
    intro i s hti htc hik hempty
    rw [stealLoop, hti, htc]
    have hqe : getQ s (.globalQ ((i + t) % N)) = [] :=
      hempty i (Nat.le_refl i) (by omega)
    rw [popQ_empty s _ hqe]
    dsimp only
    exact ih (i+1) (addLog s (.popTry (.globalQ ((i + t) % N))))
      (by simp [hti]) (by simp [htc]) (by omega)
      (fun i2 h1 h2 => by simpa using hempty i2 (by omega) h2)

/-- C6: `Work`'s job acquisition.  (1) It first pops the local queue of
the calling worker's own index; when that queue is non-empty its head
is taken and no global queue is touched.  (2) Only when the local queue
is empty does it scan the global queues in the deterministic
round-robin order `(threadIndex + i) mod N`, `i = 0, 1, …`, taking the
head of the first non-empty one (the worker's own global queue first).
(3) When every queue is empty, no job is obtained.  (4) `Work` executes
the first job obtained. -/
theorem work_pop_order (env : Env) (fo fd : Nat) (s : St) :
    (∀ j rest, getQ s (.localQ s.threadIndex) = j :: rest →
       (popPhase s).2 = some j ∧
       (popPhase s).1.localQueues = s.localQueues.set s.threadIndex rest ∧
       (popPhase s).1.globalQueues = s.globalQueues) ∧
    (∀ i j rest, getQ s (.localQ s.threadIndex) = [] →
       i < s.threadCount →
       (∀ i2, i2 < i → getQ s (.globalQ ((i2 + s.threadIndex) % s.threadCount)) = []) →
       getQ s (.globalQ ((i + s.threadIndex) % s.threadCount)) = j :: rest →
       (popPhase s).2 = some j ∧
       (popPhase s).1.globalQueues =
         s.globalQueues.set ((i + s.threadIndex) % s.threadCount) rest ∧
       (popPhase s).1.localQueues = s.localQueues) ∧
    (getQ s (.localQ s.threadIndex) = [] →
       (∀ i2, i2 < s.threadCount →
         getQ s (.globalQ ((i2 + s.threadIndex) % s.threadCount)) = []) →
       (popPhase s).2 = none) ∧
    (∀ j, (popPhase s).2 = some j →
       Work env fo fd s =
         (ExecuteJob env fo { (popPhase s).1 with runningJob := some j } j).map
           (fun s2 => (s2, true))) := by
  refine ⟨?_, ?_, ?_, ?_⟩
  · intro j rest hq
    rw [popPhase, popQ_cons s _ j rest hq]
    dsimp only
    rw [stealLoop_some]
    refine ⟨rfl, ?_, ?_⟩ <;> simp [addLog, updQ]
  · intro i j rest hloc hi hpref hq
    rw [popPhase, popQ_empty s _ hloc]
    dsimp only
    have hres := stealLoop_finds s.threadIndex s.threadCount s.threadCount 0 i
      (addLog s (.popTry (.localQ s.threadIndex))) j rest rfl rfl
      (by omega) (by omega) hi
      (by intro i2 _ h2; simpa using hpref i2 h2)
      (by simpa using hq)
    simpa using hres
  · intro hloc hempty
    rw [popPhase, popQ_empty s _ hloc]
    dsimp only
    exact stealLoop_none s.threadIndex s.threadCount s.threadCount 0
      (addLog s (.popTry (.localQ s.threadIndex))) rfl rfl (by omega)
      (by intro i2 _ h2; simpa using hempty i2 h2)
  · intro j hj
    rcases hpp : popPhase s with ⟨s1, j1⟩
    rw [hpp] at hj
    simp only at hj
    subst hj
    simp only [Work, hpp]
    cases hex : ExecuteJob env fo { s1 with runningJob := some j } j with
    | none => simp
    | some s2 => simp

/-- Witness for C6 at a concrete input: with the local queue empty and
its own global queue empty, worker 0 steals the head of global queue
`(0 + 1) mod 2 = 1`. -/
theorem work_pop_order_witness :
    (popPhase stC6).2 = some 7 ∧
    (popPhase stC6).1.globalQueues =
      stC6.globalQueues.set ((1 + stC6.threadIndex) % stC6.threadCount) [] ∧
    (popPhase stC6).1.localQueues = stC6.localQueues :=
  (work_pop_order idleEnv 4 4 stC6).2.1 1 7 [] (by decide) (by decide)
    (by decide) (by decide)

theorem findFit_chain (h : Nat → JobRec) (need : Nat) :
    ∀ (n : Nat) (cur : Option Nat) (l : List Nat) (prev : Option Nat),
    chain h n cur = some l → l.Nodup →
    ∃ pr fnd, findFit h need (n+1) prev cur = some (pr, fnd) ∧
      (fnd = none ∨
       ∃ j, fnd = some j ∧ j ∈ l ∧ need ≤ (h j).functorSize ∧
         (pr = prev ∨ ∃ p2, pr = some p2 ∧ p2 ∈ l ∧ p2 ≠ j)) := by
  intro n
  induction n with
  | zero =>
    intro cur l prev hc hnd
    cases cur with
    | none =>
      refine ⟨prev, none, rfl, Or.inl rfl⟩
    | some c => rw [chain] at hc; exact Option.noConfusion hc
  | succ n ih =>
    intro cur l prev hc hnd
    cases cur with
    | none =>
      refine ⟨prev, none, rfl, Or.inl rfl⟩
    | some c =>
      rw [chain] at hc
      rcases hlt : chain h n (h c).parent with _ | lt
      · rw [hlt] at hc; exact absurd hc (by simp)
      · rw [hlt] at hc
        simp only [Option.map_some', Option.some.injEq] at hc
        subst hc
        rw [findFit]
        by_cases hsz : (h c).functorSize < need
        · rw [if_pos hsz]
          have hndt : lt.Nodup := (List.nodup_cons.mp hnd).2
          have hcnot : c ∉ lt := (List.nodup_cons.mp hnd).1
          obtain ⟨pr, fnd, heq, hcases⟩ := ih (h c).parent lt (some c) hlt hndt
          refine ⟨pr, fnd, heq, ?_⟩
          rcases hcases with hn | ⟨j, hj, hjl, hjsz, hpr⟩
          · exact Or.inl hn
          · refine Or.inr ⟨j, hj, List.mem_cons_of_mem _ hjl, hjsz, ?_⟩
            rcases hpr with hpr | ⟨p2, hp2, hp2l, hp2j⟩
            · exact Or.inr ⟨c, hpr, List.mem_cons_self _ _,
                fun e => hcnot (e ▸ hjl)⟩
            · exact Or.inr ⟨p2, hp2, List.mem_cons_of_mem _ hp2l, hp2j⟩
        · rw [if_neg hsz]
          exact ⟨prev, some c, rfl,
            Or.inr ⟨c, rfl, List.mem_cons_self _ _, by omega, Or.inl rfl⟩⟩

theorem allocateJob_run (s : St) (fc : Fctr) (l : List Nat)
    (hc : chain s.jobs s.freeJobListCount s.freeJobList = some l)
    (hnd : l.Nodup) :
    ∃ s2 j, AllocateJob s fc = some (s2, j) ∧
      ((j ∈ l ∧ s2.jobs j = recSetFunctor { s.jobs j with parent := none } fc) ∨
       (j = s.nextAddr ∧ s2.jobs j = recSetFunctor (mkJob (128 - jobHeaderSize)) fc)) ∧
      (∀ a, a ∉ l → a ≠ s.nextAddr → s2.jobs a = s.jobs a) ∧
      s2.runningJob = s.runningJob ∧
      s2.localQueues = s.localQueues ∧
      s2.globalQueues = s.globalQueues ∧
      s2.threadIndex = s.threadIndex ∧
      s2.threadCount = s.threadCount ∧
      s2.notified = s.notified ∧
      ∃ ext, s2.log = s.log ++ ext ∧ ∀ a, Ev.inc a ∉ ext := by
  obtain ⟨pr, fnd, heq, hcases⟩ :=
    findFit_chain s.jobs (max fc.size 24) s.freeJobListCount s.freeJobList l none hc hnd
  cases fnd with
  | none =>
    simp only [AllocateJob, heq, Option.bind_eq_bind, Option.some_bind]
    refine ⟨_, _, rfl, Or.inr ⟨rfl, ?_⟩, ?_, rfl, rfl, rfl, rfl, rfl, rfl,
      ⟨[Ev.lockAlloc, Ev.unlockAlloc], by simp [addLog], by simp⟩⟩
    · simp [addLog, setJob_self]
    · intro a _ ha2
      simp [addLog, setJob_ne _ _ _ _ ha2]
  | some j =>
    rcases hcases with hno | ⟨j2, hj2, hjl, hjsz, hpr⟩
    · exact Option.noConfusion hno
    · have hj2e : j2 = j := by
        cases hj2; rfl
      subst hj2e
      simp only [AllocateJob, heq, Option.bind_eq_bind, Option.some_bind]
      rcases hpr with hpr | ⟨p2, hp2, hp2l, hp2j⟩
      · subst hpr
        refine ⟨_, _, rfl, Or.inl ⟨hjl, ?_⟩, ?_, rfl, rfl, rfl, rfl, rfl, rfl,
          ⟨[], by simp, by simp⟩⟩
        · simp [setJob_self]
        · intro a ha1 _
          have haj : a ≠ j2 := fun e => ha1 (e ▸ hjl)
          simp [setJob_ne _ _ _ _ haj]
      · subst hp2
        have hjp2 : j2 ≠ p2 := fun e => hp2j e.symm
        refine ⟨_, _, rfl, Or.inl ⟨hjl, ?_⟩, ?_, rfl, rfl, rfl, rfl, rfl, rfl,
          ⟨[], by simp, by simp⟩⟩
        · simp [setJob_self, setJob_ne _ _ _ _ hjp2]
        · intro a ha1 _
          have haj : a ≠ j2 := fun e => ha1 (e ▸ hjl)
          have hap : a ≠ p2 := fun e => ha1 (e ▸ hp2l)
          simp [setJob_ne _ _ _ _ haj, setJob_ne _ _ _ _ hap]

/-- C10: every job returned by `AllocateJob` — freshly constructed from
a pool block, or reused from the thread-local free list (whose records
are `Reset` and linked through their `parent` field) — comes back with
`parent = none`, `continuation = none`, `jobsLeft = 1`, and exactly the
newly supplied functor constructed in its inline storage.  The free
list is assumed well-formed: a `Nodup`, nil-terminated chain of `Reset`
records, which `DeallocateJob` guarantees (claim C8). -/
theorem allocateJob_invariant (s : St) (fc : Fctr) (l : List Nat)
    (hc : chain s.jobs s.freeJobListCount s.freeJobList = some l)
    (hnd : l.Nodup)
    (hreset : ∀ a ∈ l, (s.jobs a).continuation = none ∧ (s.jobs a).jobsLeft = 1 ∧
              (s.jobs a).functorActive = false ∧ (s.jobs a).functorData = none) :
    ∃ s2 j, AllocateJob s fc = some (s2, j) ∧
      (s2.jobs j).parent = none ∧ (s2.jobs j).continuation = none ∧
      (s2.jobs j).jobsLeft = 1 ∧ (s2.jobs j).functorActive = true ∧
      (s2.jobs j).functorData = some fc.tag := by
  obtain ⟨s2, j, halloc, hrec, _⟩ := allocateJob_run s fc l hc hnd
  refine ⟨s2, j, halloc, ?_⟩
  rcases hrec with ⟨hjl, hrec⟩ | ⟨_, hrec⟩
  · obtain ⟨h1, h2, _⟩ := hreset j hjl
    rw [hrec]
    simp [recSetFunctor, h1, h2]
  · rw [hrec]
    simp [recSetFunctor, mkJob, resetRec]

/-- Witness for C10 at a concrete input (reusing job 7 from the free
list). -/
theorem allocateJob_invariant_witness :
    ∃ s2 j, AllocateJob stFree ⟨5, 24⟩ = some (s2, j) ∧
      (s2.jobs j).parent = none ∧ (s2.jobs j).continuation = none ∧
      (s2.jobs j).jobsLeft = 1 ∧ (s2.jobs j).functorActive = true ∧
      (s2.jobs j).functorData = some 5 :=
  allocateJob_invariant stFree ⟨5, 24⟩ [7] (by decide) (by decide) (by decide)

/-- C9: `ScheduleDetached`, even with an ambient running job `r`
present: the new job's parent stays `none` (no parenting to the ambient
job), `r`'s record — in particular its `jobsLeft` — is untouched, and
the remaining effects are as for `Schedule`: push onto the current
worker's global queue and condvar notify.  No counter increment is
logged anywhere in the call. -/
theorem scheduleDetached_no_parenting (s : St) (fc : Fctr) (r : Nat) (l : List Nat)
    (hrun : s.runningJob = some r)
    (hc : chain s.jobs s.freeJobListCount s.freeJobList = some l)
    (hnd : l.Nodup)
    (hrl : r ∉ l) (hrn : r ≠ s.nextAddr)
    (ht : s.threadIndex < s.globalQueues.length) :
    ∃ s2 j, ScheduleDetached s fc = some (s2, j) ∧
      (s2.jobs j).parent = none ∧
      s2.jobs r = s.jobs r ∧
      getQ s2 (.globalQ s.threadIndex) = getQ s (.globalQ s.threadIndex) ++ [j] ∧
      s2.notified = true ∧
      ∃ ext, s2.log = s.log ++ ext ∧ ∀ a, Ev.inc a ∉ ext := by
  obtain ⟨sA, j, halloc, hrec, hframe, hrunA, hlocA, hglobA, htiA, htcA, hnotA,
    extA, hlogA, hincA⟩ := allocateJob_run s fc l hc hnd
  have hparent : (sA.jobs j).parent = none := by
    rcases hrec with ⟨_, hrec⟩ | ⟨_, hrec⟩ <;>
      rw [hrec] <;> simp [recSetFunctor, mkJob, resetRec]
  simp only [ScheduleDetached, halloc, Option.bind_eq_bind, Option.some_bind]
  rw [ScheduleRaw]
  rw [hrunA, hrun]
  simp only [Bool.true_eq_false, and_false, if_false, reduceIte]
  refine ⟨_, j, rfl, ?_, ?_, ?_, rfl, ?_⟩
  · simpa [pushQ, addLog, updQ] using hparent
  · simpa [pushQ, addLog, updQ] using hframe r hrl hrn
  · rw [htiA]
    simp only [getQ, pushQ, addLog, updQ]
    rw [hglobA]
    simp [List.getElem?_set_eq_of_lt _ ht, getQ]
  · refine ⟨extA ++ [.push (.globalQ s.threadIndex) j, .notify], ?_, ?_⟩
    · simp [pushQ, addLog, updQ, htiA, hlogA, List.append_assoc]
    · intro a
      simp only [List.mem_append, List.mem_cons]
      rintro (h | h | h | h)
      · exact hincA a h
      · exact Ev.noConfusion h
      · exact Ev.noConfusion h
      · exact absurd h (List.not_mem_nil _)

/-- Witness for C9 at a concrete input (ambient job 5 running). -/
theorem scheduleDetached_no_parenting_witness :
    ∃ s2 j, ScheduleDetached stC2 ⟨5, 24⟩ = some (s2, j) ∧
      (s2.jobs j).parent = none ∧
      s2.jobs 5 = stC2.jobs 5 ∧
      getQ s2 (.globalQ stC2.threadIndex) = getQ stC2 (.globalQ stC2.threadIndex) ++ [j] ∧
      s2.notified = true ∧
      ∃ ext, s2.log = stC2.log ++ ext ∧ ∀ a, Ev.inc a ∉ ext :=
  scheduleDetached_no_parenting stC2 ⟨5, 24⟩ 5 [] rfl (by decide) (by decide)
    (by decide) (by decide) (by decide)
